import Mathlib

/-!
Verification of the decode loop and token-selection code of
`PaliGemma/inference.py` (functions `test_inference` and `_sample_top_p`).

Probabilities and scores are embedded as rational numbers; tensors of
shape `(1, n)` over the vocabulary become `List ℚ`.  The external model
is a black box: the loop is parameterised by the token each step would
select, and the samplers are verified as standalone functions on score
vectors, exactly as the source composes them.
-/

namespace PaliGemma

/-! ### Sorting with indices: `torch.sort(probs, descending=True)`

`torch.sort` returns the sorted values together with the permutation of
original indices (`probs_sort, probs_idx`).  We model it by pairing each
probability with its index and sorting pairs by value descending, ties by
index ascending (the behaviour of the CPU sort). -/

/-- Order used to sort (value, index) pairs: larger value first,
equal values ordered by original index. -/
def rankLE (a b : ℚ × ℕ) : Prop :=
  b.1 < a.1 ∨ (a.1 = b.1 ∧ a.2 ≤ b.2)

instance : DecidableRel rankLE := fun a b => by
  unfold rankLE; infer_instance

instance : IsTotal (ℚ × ℕ) rankLE := by
  constructor
  intro a b
  rcases lt_trichotomy a.1 b.1 with h | h | h
  · exact Or.inr (Or.inl h)
  · rcases le_total a.2 b.2 with h2 | h2
    · exact Or.inl (Or.inr ⟨h, h2⟩)
    · exact Or.inr (Or.inr ⟨h.symm, h2⟩)
  · exact Or.inl (Or.inl h)

instance : IsTrans (ℚ × ℕ) rankLE := by
  constructor
  rintro a b c (h1 | ⟨h1, h1i⟩) (h2 | ⟨h2, h2i⟩)
  · exact Or.inl (h2.trans h1)
  · exact Or.inl (h2 ▸ h1)
  · exact Or.inl (h1 ▸ h2)
  · exact Or.inr ⟨h1.trans h2, h1i.trans h2i⟩

/-- Pair each probability with its vocabulary index. -/
def withIdx (probs : List ℚ) : List (ℚ × ℕ) :=
  probs.enum.map (fun p => (p.2, p.1))

/-- Model of `torch.sort(probs, descending=True)`: sorted (value, index)
pairs. -/
def sortDesc (probs : List ℚ) : List (ℚ × ℕ) :=
  (withIdx probs).insertionSort rankLE

/-- Model of `probs_sort`: the sorted values. -/
def probsSort (probs : List ℚ) : List ℚ :=
  (sortDesc probs).map Prod.fst

/-- Model of `probs_idx`: the permutation back to original vocabulary ids. -/
def probsIdx (probs : List ℚ) : List ℕ :=
  (sortDesc probs).map Prod.snd

/-! ### Truncation, renormalization, draw: body of `_sample_top_p` -/

/-- Model of `mask = probs_sum - probs_sort > p; probs_sort[mask] = 0.0`:
an entry is zeroed when the cumulative sum of the entries before it
(inclusive cumsum minus the entry itself) exceeds `p`.  `acc` carries
that cumulative-sum-so-far. -/
def truncGo (p : ℚ) : ℚ → List ℚ → List ℚ
  | _, [] => []
  | acc, x :: xs => (if p < acc then 0 else x) :: truncGo p (acc + x) xs

/-- Truncation applied to the sorted values, starting from cumulative sum 0. -/
def truncateTopP (l : List ℚ) (p : ℚ) : List ℚ :=
  truncGo p 0 l

/-- Model of `probs_sort.div_(probs_sort.sum(...))`: renormalize surviving entries. -/
def renorm (l : List ℚ) : List ℚ :=
  l.map (fun x => x / l.sum)

/-- Model of `torch.multinomial(weights, num_samples=1)` by inverse-CDF:
given a uniform draw `u`, return the first index whose cumulative weight
exceeds `u`. -/
def drawIndex : List ℚ → ℚ → ℕ
  | [], _ => 0
  | w :: ws, u => if u < w then 0 else drawIndex ws (u - w) + 1

/-- Model of `_sample_top_p(probs, p)` with the random draw made explicit as `u`:
sort descending, truncate, renormalize, draw a rank, and `torch.gather`
the rank back to the original vocabulary id. -/
def sampleTopP (probs : List ℚ) (p : ℚ) (u : ℚ) : ℕ :=
  (probsIdx probs).getD (drawIndex (renorm (truncateTopP (probsSort probs) p)) u) 0

/-! ### Greedy branch: `torch.argmax(next_token_logits, dim=-1)` -/

/-- Maximum value of a non-empty score vector (0 on the empty vector). -/
def listMax : List ℚ → ℚ
  | [] => 0
  | [x] => x
  | x :: y :: ys => max x (listMax (y :: ys))

/-- Model of `torch.argmax`: index of the maximum value, ties resolved to the
lowest index (the first maximal value, per the documented semantics). -/
def argmaxIdx : List ℚ → ℕ
  | [] => 0
  | [_] => 0
  | x :: y :: ys => if x < listMax (y :: ys) then argmaxIdx (y :: ys) + 1 else 0

/-! ### The decode loop of `test_inference`

The model forward pass, softmax and sampling together select one token
per step; the loop below is parameterised by that selection
`next : step ↦ token id`, and mirrors the `for _ in range(max)` loop:
append the token, `break` on the stop token, otherwise extend the
attention mask by one `1` and continue. -/

structure LoopState where
  /-- number of loop iterations that have executed -/
  step : ℕ
  /-- the `generated_tokens` list -/
  generated : List ℕ
  /-- the `attention_mask` row of 0/1 flags -/
  attnMask : List ℕ
  /-- whether the `break` was taken -/
  done : Bool
deriving DecidableEq, Repr

/-- State before the loop: empty output, the attention mask of the prompt. -/
def initState (mask0 : List ℕ) : LoopState :=
  ⟨0, [], mask0, false⟩

/-- One iteration of the `for` loop body.  After the `break` has been
taken the state is frozen (the remaining range iterations do not run). -/
def decodeStep (next : ℕ → ℕ) (eos : ℕ) (s : LoopState) : LoopState :=
  if s.done then s
  else
    let t := next s.step
    if t = eos then
      ⟨s.step + 1, s.generated ++ [t], s.attnMask, true⟩
    else
      ⟨s.step + 1, s.generated ++ [t], s.attnMask ++ [1], false⟩

/-- Running the loop `for _ in range(maxTokens)`. -/
def runDecode (next : ℕ → ℕ) (eos : ℕ) (mask0 : List ℕ) (maxTokens : ℕ) :
    LoopState :=
  (decodeStep next eos)^[maxTokens] (initState mask0)

/-- Model of `torch.cat(generated_tokens, dim=-1)`: concatenating a list of
one-element tensors; raises (`none`) when the list is empty. -/
def torchCat (tokens : List ℕ) : Option (List ℕ) :=
  if tokens.isEmpty then none else some tokens

/-- Model of `test_inference` after input preparation: run the decode loop, then
concatenate the generated tokens (the subsequent decode/print consumes
the result).  `maxTokens` is an `int` in the source, so it is `ℤ` here;
`range` of a non-positive bound is empty. -/
def testInference (next : ℕ → ℕ) (eos : ℕ) (mask0 : List ℕ) (maxTokens : ℤ) :
    Option (List ℕ) :=
  torchCat (runDecode next eos mask0 maxTokens.toNat).generated

/-- Total probability that a (value, vocabulary id) pairing assigns to
the vocabulary id `j`: the sum of the values paired with `j`.  Applied
to `sortDesc` it reads off the distribution over original vocabulary
ids that the truncated draw uses. -/
def massAt (s : List (ℚ × ℕ)) (j : ℕ) : ℚ :=
  ((s.filter (fun q => q.2 == j)).map Prod.fst).sum

/-! ### Invariant of the decode loop -/

/-- Invariant after `k` iterations of the loop body: the output is the
tokens selected so far; before the `break` the mask has grown by one `1`
per step, while the `break` iteration appends its token but leaves the
mask untouched. -/
def DecodeInv (next : ℕ → ℕ) (eos : ℕ) (mask0 : List ℕ) (k : ℕ)
    (s : LoopState) : Prop :=
  s.generated = (List.range s.step).map next ∧
  (if s.done then
      1 ≤ s.step ∧ s.step ≤ k ∧ next (s.step - 1) = eos ∧
      (∀ i, i < s.step - 1 → next i ≠ eos) ∧
      s.attnMask = mask0 ++ List.replicate (s.step - 1) 1
    else
      s.step = k ∧ (∀ i, i < k → next i ≠ eos) ∧
      s.attnMask = mask0 ++ List.replicate k 1)

theorem decode_inv (next : ℕ → ℕ) (eos : ℕ) (mask0 : List ℕ) :
    ∀ k, DecodeInv next eos mask0 k
      ((decodeStep next eos)^[k] (initState mask0)) := by
  intro k
  induction k with
  | zero =>
    simp [DecodeInv, initState]
  | succ k ih =>
    rw [Function.iterate_succ_apply']
    generalize hs : (decodeStep next eos)^[k] (initState mask0) = s at ih
    rcases hd : s.done with _ | _
    · simp only [DecodeInv, hd, Bool.false_eq_true, if_false] at ih
      obtain ⟨hgen, hstep, hne, hmask⟩ := ih
      by_cases heos : next s.step = eos
      · simp only [decodeStep, hd, heos, if_true, if_false, Bool.false_eq_true]
        refine ⟨?_, ?_⟩
        · simp [hgen, List.range_succ, heos]
        · simp only [if_true]
          refine ⟨Nat.succ_le_succ (Nat.zero_le _), by omega, ?_, ?_, ?_⟩
          · simpa [hstep] using heos
          · simpa [hstep] using hne
          · simpa [hstep] using hmask
      · simp only [decodeStep, hd, heos, if_false, Bool.false_eq_true]
        refine ⟨?_, ?_⟩
        · simp [hgen, List.range_succ]
        · simp only [if_false, Bool.false_eq_true]
          refine ⟨by omega, ?_, ?_⟩
          · intro i hi
            rcases Nat.lt_succ_iff_lt_or_eq.mp hi with h | h
            · exact hne i (hstep ▸ h)
            · rw [h, ← hstep] at *; exact heos
          · simp [hmask, hstep, List.replicate_add, List.append_assoc]
    · have hfix : decodeStep next eos s = s := by
        simp [decodeStep, hd]
      rw [hfix]
      simp only [DecodeInv, hd, if_true] at ih ⊢
      obtain ⟨hgen, h1, h2, rest⟩ := ih
      exact ⟨hgen, h1, Nat.le_succ_of_le h2, rest⟩

/-- Once the `break` has been taken, further range iterations are no-ops. -/
theorem iterate_frozen (next : ℕ → ℕ) (eos : ℕ) (s : LoopState)
    (h : s.done = true) : ∀ m, (decodeStep next eos)^[m] s = s := by
  intro m
  induction m with
  | zero => rfl
  | succ m ih =>
    rw [Function.iterate_succ_apply', ih]
    simp [decodeStep, h]

/-- When the loop breaks within the budget, the final state is the state
at the break. -/
theorem runDecode_eq_of_done (next : ℕ → ℕ) (eos : ℕ) (mask0 : List ℕ)
    (maxTokens k : ℕ) (hk : k ≤ maxTokens)
    (h : ((decodeStep next eos)^[k] (initState mask0)).done = true) :
    runDecode next eos mask0 maxTokens =
      (decodeStep next eos)^[k] (initState mask0) := by
  unfold runDecode
  have hmt : maxTokens = (maxTokens - k) + k := by omega
  rw [hmt, Function.iterate_add_apply]
  exact iterate_frozen next eos _ h _

/-- The loop never takes more iterations than the budget. -/
theorem runDecode_step_le (next : ℕ → ℕ) (eos : ℕ) (mask0 : List ℕ)
    (maxTokens : ℕ) :
    (runDecode next eos mask0 maxTokens).step ≤ maxTokens := by
  have h := decode_inv next eos mask0 maxTokens
  unfold runDecode
  rcases hd : ((decodeStep next eos)^[maxTokens] (initState mask0)).done with _ | _
  · simp only [DecodeInv, hd, Bool.false_eq_true, if_false] at h
    omega
  · simp only [DecodeInv, hd, if_true] at h
    exact h.2.2.1

/-! ### Claims about the decode loop -/

/-- Claim C1 (counterexample): the attention mask does not grow on the
step at which generation stops.  With prompt mask `[1]` and a run whose
first sampled token is already the stop token, the stopping step is step
1, yet the mask still has length 1, not `promptLength + 1 = 2`. -/
theorem attnMask_stop_counterexample :
    (runDecode (fun _ => 2) 2 [1] 5).step = 1 ∧
    ((decodeStep (fun _ => 2) 2)^[1] (initState [1])).attnMask.length ≠
      [1].length + 1 := by
  decide

/-- Claim C1 (amended): for every run and every step `k` up to the
stopping step, the attention mask after step `k` has length
`promptLength + k` when the run has not stopped on the stop token, and
length `promptLength + k - 1` when step `k` sampled the stop token (the
`break` fires before the mask is extended). -/
theorem attnMask_growth (next : ℕ → ℕ) (eos : ℕ) (mask0 : List ℕ)
    (maxTokens k : ℕ)
    (hk : k ≤ (runDecode next eos mask0 maxTokens).step) :
    ((decodeStep next eos)^[k] (initState mask0)).attnMask.length =
      mask0.length + k -
        (if ((decodeStep next eos)^[k] (initState mask0)).done then 1
          else 0) := by
  have hinv := decode_inv next eos mask0 k
  rcases hd : ((decodeStep next eos)^[k] (initState mask0)).done with _ | _
  · simp only [DecodeInv, hd, Bool.false_eq_true, if_false] at hinv ⊢
    obtain ⟨-, -, -, hmask⟩ := hinv
    simp [hmask]
  · have hkmax : k ≤ maxTokens :=
      le_trans hk (runDecode_step_le next eos mask0 maxTokens)
    have hfin := runDecode_eq_of_done next eos mask0 maxTokens k hkmax hd
    simp only [DecodeInv, hd, if_true] at hinv ⊢
    obtain ⟨-, h1, h2, -, -, hmask⟩ := hinv
    rw [hfin] at hk
    have hsk : ((decodeStep next eos)^[k] (initState mask0)).step = k :=
      le_antisymm h2 hk
    rw [hmask]
    simp only [List.length_append, List.length_replicate, hsk]
    omega

/-- Witness for claim C1 (amended) at a concrete run that never samples
the stop token: after 2 steps the mask of the length-2 prompt has grown
to length 4. -/
theorem attnMask_growth_witness :
    ((decodeStep (fun _ => 3) 5)^[2] (initState [1, 1])).attnMask.length =
      [1, 1].length + 2 -
        (if ((decodeStep (fun _ => 3) 5)^[2] (initState [1, 1])).done then 1
          else 0) :=
  attnMask_growth (fun _ => 3) 5 [1, 1] 2 2 (by decide)

/-- Claim C3: the loop stops at step `k < maxTokensToGenerate` exactly
when step `k` samples the stop token and no earlier step did; in that
case the generated sequence has length exactly `k` and ends with the
stop token (the token is appended before the stop check). -/
theorem eos_stop_iff (next : ℕ → ℕ) (eos : ℕ) (mask0 : List ℕ)
    (maxTokens k : ℕ) (h1 : 1 ≤ k) (h2 : k < maxTokens) :
    (((runDecode next eos mask0 maxTokens).done = true ∧
        (runDecode next eos mask0 maxTokens).step = k) ↔
      (next (k - 1) = eos ∧ ∀ j, j < k - 1 → next j ≠ eos)) ∧
    ((runDecode next eos mask0 maxTokens).done = true →
      (runDecode next eos mask0 maxTokens).step = k →
      (runDecode next eos mask0 maxTokens).generated.length = k ∧
      (runDecode next eos mask0 maxTokens).generated.getLast? = some eos) := by
  have hinv := decode_inv next eos mask0 maxTokens
  unfold runDecode
  generalize hF : (decodeStep next eos)^[maxTokens] (initState mask0) = F at hinv ⊢
  rcases hd : F.done with _ | _
  · simp only [DecodeInv, hd, Bool.false_eq_true, if_false] at hinv
    obtain ⟨-, hstep, hne, -⟩ := hinv
    refine ⟨⟨?_, ?_⟩, ?_⟩
    · rintro ⟨hcon, -⟩
      exact absurd hcon (by simp [hd])
    · rintro ⟨heos, -⟩
      exact absurd heos (hne (k - 1) (by omega))
    · intro hcon
      exact absurd hcon (by simp [hd])
  · simp only [DecodeInv, hd, if_true] at hinv
    obtain ⟨hgen, hj1, hjle, heosj, hnej, -⟩ := hinv
    have hlast : F.generated.getLast? = some (next (F.step - 1)) := by
      obtain ⟨m, hm⟩ : ∃ m, F.step = m + 1 := ⟨F.step - 1, by omega⟩
      rw [hgen, hm, List.range_succ, List.map_append]
      simp [hm]
    refine ⟨⟨?_, ?_⟩, ?_⟩
    · rintro ⟨-, hstep⟩
      rw [hstep] at heosj hnej
      exact ⟨heosj, hnej⟩
    · rintro ⟨heos, hne⟩
      refine ⟨rfl, ?_⟩
      by_contra hne2
      rcases Nat.lt_or_ge F.step k with h | h
      · exact hne (F.step - 1) (by omega) heosj
      · exact hnej (k - 1) (by omega) heos
    · intro _ hstep
      rw [hstep] at heosj
      constructor
      · rw [hgen, hstep]
        simp
      · rw [hlast, hstep, heosj]

/-- Witness for claim C3: a run whose first sampled token is the stop
token stops with `done` at step 1. -/
theorem eos_stop_iff_witness :
    (runDecode (fun _ => 7) 7 [1] 3).done = true ∧
    (runDecode (fun _ => 7) 7 [1] 3).step = 1 :=
  ((eos_stop_iff (fun _ => 7) 7 [1] 3 1 (by decide) (by decide)).1).mpr
    ⟨rfl, fun j hj => absurd hj (by omega)⟩

/-- Claim C4 (counterexample): with `maxTokensToGenerate = 0` the budget
is exhausted without the stop token ever being sampled, yet the call
errors (the final `torch.cat` of the empty token list raises) instead of
returning a valid empty sequence. -/
theorem budget_zero_error_counterexample :
    (runDecode (fun _ => 0) 1 [1] 0).done = false ∧
    (runDecode (fun _ => 0) 1 [1] 0).generated.length = 0 ∧
    testInference (fun _ => 0) 1 [1] 0 = none := by
  decide

/-- Claim C4 (amended): provided `maxTokensToGenerate ≥ 1`, the decode
loop executes at most `maxTokensToGenerate` iterations, and when the
stop token is never sampled the budget is exhausted and the call returns
a valid sequence of length exactly `maxTokensToGenerate`, not an
error. -/
theorem budget_bound (next : ℕ → ℕ) (eos : ℕ) (mask0 : List ℕ)
    (maxTokens : ℕ) (hmax : 1 ≤ maxTokens) :
    (runDecode next eos mask0 maxTokens).step ≤ maxTokens ∧
    ((∀ i, i < maxTokens → next i ≠ eos) →
      (runDecode next eos mask0 maxTokens).done = false ∧
      (runDecode next eos mask0 maxTokens).generated.length = maxTokens ∧
      (testInference next eos mask0 (maxTokens : ℤ)).isSome = true) := by
  refine ⟨runDecode_step_le next eos mask0 maxTokens, ?_⟩
  intro hnever
  have hinv := decode_inv next eos mask0 maxTokens
  rcases hd : (runDecode next eos mask0 maxTokens).done with _ | _
  · unfold runDecode at hd ⊢
    simp only [DecodeInv, hd, Bool.false_eq_true, if_false] at hinv
    obtain ⟨hgen, hstep, -, -⟩ := hinv
    have hlen : ((decodeStep next eos)^[maxTokens] (initState mask0)).generated.length
        = maxTokens := by
      rw [hgen, hstep]
      simp
    refine ⟨rfl, hlen, ?_⟩
    unfold testInference runDecode
    simp only [Int.toNat_natCast]
    unfold torchCat
    have : ¬ ((decodeStep next eos)^[maxTokens] (initState mask0)).generated.isEmpty = true := by
      rw [List.isEmpty_iff_length_eq_zero, hlen]
      omega
    simp [this]
  · unfold runDecode at hd
    simp only [DecodeInv, hd, if_true] at hinv
    obtain ⟨-, hj1, hjle, heosj, -, -⟩ := hinv
    exact absurd heosj (hnever _ (by omega))

/-- Witness for claim C4 (amended) on a concrete run with budget 2 that
never samples the stop token. -/
theorem budget_bound_witness :
    (runDecode (fun _ => 0) 1 [1] 2).step ≤ 2 ∧
    ((∀ i, i < 2 → (fun _ => 0 : ℕ → ℕ) i ≠ 1) →
      (runDecode (fun _ => 0) 1 [1] 2).done = false ∧
      (runDecode (fun _ => 0) 1 [1] 2).generated.length = 2 ∧
      (testInference (fun _ => 0) 1 [1] ((2 : ℕ) : ℤ)).isSome = true) :=
  budget_bound (fun _ => 0) 1 [1] 2 (by decide)

/-- Claim C9: when `maxTokensToGenerate` is zero or negative, the loop
body never runs, the generated-token list stays empty, and the final
concatenation fails, so the call errors rather than returning an empty
generation. -/
theorem nonpos_budget_errors (next : ℕ → ℕ) (eos : ℕ) (mask0 : List ℕ)
    (m : ℤ) (hm : m ≤ 0) :
    (runDecode next eos mask0 m.toNat).generated = [] ∧
    testInference next eos mask0 m = none := by
  have h0 : m.toNat = 0 := Int.toNat_of_nonpos hm
  unfold testInference
  rw [h0]
  exact ⟨rfl, rfl⟩

/-- Witness for claim C9 at the concrete budget `-3`. -/
theorem nonpos_budget_errors_witness :
    (runDecode (fun _ => 0) 1 [1] (Int.toNat (-3))).generated = [] ∧
    testInference (fun _ => 0) 1 [1] (-3) = none :=
  nonpos_budget_errors (fun _ => 0) 1 [1] (-3) (by decide)

/-! ### Basic facts about the sort with indices -/

theorem sortDesc_perm (probs : List ℚ) : (sortDesc probs).Perm (withIdx probs) :=
  List.perm_insertionSort rankLE (withIdx probs)

theorem sortDesc_sorted (probs : List ℚ) : List.Sorted rankLE (sortDesc probs) :=
  List.sorted_insertionSort rankLE (withIdx probs)

theorem map_fst_withIdx (probs : List ℚ) : (withIdx probs).map Prod.fst = probs := by
  unfold withIdx
  rw [List.map_map]
  have h : (Prod.fst ∘ fun p : ℕ × ℚ => (p.2, p.1)) = Prod.snd := rfl
  rw [h, List.enum_map_snd]

theorem map_snd_withIdx (probs : List ℚ) :
    (withIdx probs).map Prod.snd = List.range probs.length := by
  unfold withIdx
  rw [List.map_map]
  have h : (Prod.snd ∘ fun p : ℕ × ℚ => (p.2, p.1)) = Prod.fst := rfl
  rw [h, List.enum_map_fst]

theorem probsSort_perm (probs : List ℚ) : (probsSort probs).Perm probs := by
  have h := (sortDesc_perm probs).map Prod.fst
  rwa [map_fst_withIdx] at h

theorem probsIdx_perm_range (probs : List ℚ) :
    (probsIdx probs).Perm (List.range probs.length) := by
  have h := (sortDesc_perm probs).map Prod.snd
  rwa [map_snd_withIdx] at h

theorem probsSort_length (probs : List ℚ) :
    (probsSort probs).length = probs.length :=
  (probsSort_perm probs).length_eq

theorem probsIdx_length (probs : List ℚ) :
    (probsIdx probs).length = probs.length := by
  have h := (probsIdx_perm_range probs).length_eq
  rwa [List.length_range] at h

theorem probsSort_sum (probs : List ℚ) : (probsSort probs).sum = probs.sum :=
  (probsSort_perm probs).sum_eq

theorem mem_probsSort_nonneg {probs : List ℚ} (hnn : ∀ x ∈ probs, 0 ≤ x) :
    ∀ x ∈ probsSort probs, 0 ≤ x := fun x hx =>
  hnn x ((probsSort_perm probs).mem_iff.mp hx)

theorem mem_probsIdx_lt {probs : List ℚ} {j : ℕ} (h : j ∈ probsIdx probs) :
    j < probs.length := by
  have h2 := (probsIdx_perm_range probs).mem_iff.mp h
  exact List.mem_range.mp h2

theorem mem_withIdx {probs : List ℚ} {x : ℚ} {i : ℕ}
    (h : (x, i) ∈ withIdx probs) :
    i < probs.length ∧ probs.getD i 0 = x := by
  unfold withIdx at h
  rcases List.mem_map.mp h with ⟨⟨a, b⟩, hmem, heq⟩
  cases heq
  have he := List.mem_enumFrom (by simpa [List.enum] using hmem)
  obtain ⟨-, hlt, hval⟩ := he
  simp only [Nat.zero_add, Nat.sub_zero] at hlt hval
  exact ⟨hlt, by rw [List.getD_eq_getElem probs 0 hlt, hval]⟩

/-- Heads of the descending sort dominate: the first sorted value is a
member of the input and is greater than or equal to every input value. -/
theorem sortDesc_head_max (probs : List ℚ) (hne : probs ≠ []) :
    ∃ m i rest, sortDesc probs = (m, i) :: rest ∧
      (∀ x ∈ probs, x ≤ m) ∧ m ∈ probs ∧ i < probs.length ∧
      probs.getD i 0 = m := by
  have hlen : (sortDesc probs).length = probs.length := by
    have h := (sortDesc_perm probs).length_eq
    rw [h]
    unfold withIdx
    rw [List.length_map, List.enum_length]
  rcases hsd : sortDesc probs with _ | ⟨⟨m, i⟩, rest⟩
  · rw [hsd] at hlen
    exact absurd (List.length_eq_zero.mp hlen.symm) hne
  · have hsorted := sortDesc_sorted probs
    rw [hsd] at hsorted
    have hmemq : (m, i) ∈ withIdx probs := by
      have : (m, i) ∈ sortDesc probs := by rw [hsd]; exact List.mem_cons_self _ _
      exact (sortDesc_perm probs).mem_iff.mp this
    obtain ⟨hilt, hival⟩ := mem_withIdx hmemq
    refine ⟨m, i, rest, rfl, ?_, ?_, hilt, hival⟩
    · intro x hx
      have hx2 : x ∈ (withIdx probs).map Prod.fst := by
        rw [map_fst_withIdx]; exact hx
      rcases List.mem_map.mp hx2 with ⟨q, hq, hqx⟩
      have hq2 : q ∈ sortDesc probs := (sortDesc_perm probs).mem_iff.mpr hq
      rw [hsd] at hq2
      rcases List.mem_cons.mp hq2 with rfl | hq3
      · rw [← hqx]
      · have hr := List.rel_of_sorted_cons hsorted q hq3
        rcases hr with h | ⟨h, -⟩
        · rw [← hqx]; exact le_of_lt h
        · rw [← hqx]; exact le_of_eq h.symm
    · have : m ∈ (withIdx probs).map Prod.fst := List.mem_map_of_mem Prod.fst hmemq
      rwa [map_fst_withIdx] at this

/-! ### Facts about the truncation -/

theorem truncGo_length (p : ℚ) : ∀ (acc : ℚ) (xs : List ℚ),
    (truncGo p acc xs).length = xs.length := by
  intro acc xs
  induction xs generalizing acc with
  | nil => rfl
  | cons x xs ih => simp [truncGo, ih]

theorem truncGo_nonneg (p : ℚ) : ∀ (acc : ℚ) (xs : List ℚ),
    (∀ x ∈ xs, 0 ≤ x) → ∀ y ∈ truncGo p acc xs, 0 ≤ y := by
  intro acc xs
  induction xs generalizing acc with
  | nil => intro _ y hy; simp [truncGo] at hy
  | cons x xs ih =>
    intro hnn y hy
    simp only [truncGo, List.mem_cons] at hy
    rcases hy with rfl | hy
    · split
      · exact le_refl 0
      · exact hnn x (List.mem_cons_self _ _)
    · exact ih (acc + x) (fun z hz => hnn z (List.mem_cons_of_mem _ hz)) y hy

theorem truncGo_sum_nonneg (p : ℚ) (acc : ℚ) (xs : List ℚ)
    (hnn : ∀ x ∈ xs, 0 ≤ x) : 0 ≤ (truncGo p acc xs).sum :=
  List.sum_nonneg (truncGo_nonneg p acc xs hnn)

theorem truncGo_keep_all (p : ℚ) : ∀ (xs : List ℚ) (acc : ℚ),
    (∀ x ∈ xs, 0 ≤ x) → acc + xs.sum ≤ p → truncGo p acc xs = xs := by
  intro xs
  induction xs with
  | nil => intro acc _ _; rfl
  | cons x xs ih =>
    intro acc hnn hle
    have hx : 0 ≤ x := hnn x (List.mem_cons_self _ _)
    have hrest : 0 ≤ xs.sum :=
      List.sum_nonneg (fun z hz => hnn z (List.mem_cons_of_mem _ hz))
    rw [List.sum_cons] at hle
    have hacc : ¬ p < acc := by
      rw [not_lt]
      calc acc ≤ acc + (x + xs.sum) := le_add_of_nonneg_right (by linarith)
      _ ≤ p := hle
    simp only [truncGo, if_neg hacc]
    rw [ih (acc + x) (fun z hz => hnn z (List.mem_cons_of_mem _ hz)) (by linarith)]

theorem truncGo_zero_all (p : ℚ) : ∀ (xs : List ℚ) (acc : ℚ),
    (∀ x ∈ xs, 0 ≤ x) → p < acc →
    truncGo p acc xs = List.replicate xs.length 0 := by
  intro xs
  induction xs with
  | nil => intro acc _ _; rfl
  | cons x xs ih =>
    intro acc hnn hlt
    have hx : 0 ≤ x := hnn x (List.mem_cons_self _ _)
    simp only [truncGo, if_pos hlt, List.length_cons, List.replicate_succ]
    rw [ih (acc + x) (fun z hz => hnn z (List.mem_cons_of_mem _ hz)) (by linarith)]

theorem truncateTopP_head (l : List ℚ) (p : ℚ) (hp : 0 ≤ p) :
    (truncateTopP l p).head? = l.head? := by
  cases l with
  | nil => rfl
  | cons x xs => simp [truncateTopP, truncGo, not_lt.mpr hp]

/-! ### Facts about renormalization and the draw -/

theorem sum_map_div (l : List ℚ) (c : ℚ) :
    (l.map (fun x => x / c)).sum = l.sum / c := by
  induction l with
  | nil => simp
  | cons x xs ih => simp [ih, add_div]

theorem renorm_sum_of_ne (l : List ℚ) (h : l.sum ≠ 0) : (renorm l).sum = 1 := by
  unfold renorm
  rw [sum_map_div]
  exact div_self h

theorem renorm_length (l : List ℚ) : (renorm l).length = l.length :=
  List.length_map l _

theorem drawIndex_lt (ws : List ℚ) : ∀ (u : ℚ), 0 ≤ u → u < ws.sum →
    drawIndex ws u < ws.length := by
  induction ws with
  | nil => intro u h0 h1; simp at h1; linarith
  | cons w ws ih =>
    intro u h0 h1
    by_cases h : u < w
    · simp [drawIndex, h]
    · rw [List.sum_cons] at h1
      simp only [drawIndex, if_neg h, List.length_cons]
      exact Nat.succ_lt_succ (ih (u - w) (by linarith [not_lt.mp h]) (by linarith))

theorem drawIndex_pos_weight (ws : List ℚ) : ∀ (u : ℚ), 0 ≤ u →
    drawIndex ws u < ws.length → 0 < ws.getD (drawIndex ws u) 0 := by
  induction ws with
  | nil => intro u _ h; simp at h
  | cons w ws ih =>
    intro u h0 hlt
    by_cases h : u < w
    · simp only [drawIndex, if_pos h, List.getD_cons_zero]
      linarith
    · simp only [drawIndex, if_neg h, List.getD_cons_succ]
      simp only [drawIndex, if_neg h, List.length_cons, Nat.succ_lt_succ_iff] at hlt
      exact ih (u - w) (by linarith [not_lt.mp h]) hlt

theorem list_sum_nonpos {l : List ℚ} (h : ∀ x ∈ l, x ≤ 0) : l.sum ≤ 0 := by
  induction l with
  | nil => simp
  | cons x xs ih =>
    rw [List.sum_cons]
    have hx := h x (List.mem_cons_self _ _)
    have hxs := ih (fun z hz => h z (List.mem_cons_of_mem _ hz))
    linarith

theorem getD_mem_of_lt (l : List ℚ) (j : ℕ) (h : j < l.length) :
    l.getD j 0 ∈ l := by
  rw [List.getD_eq_getElem l 0 h]
  exact List.getElem_mem h

/-- With nonnegative entries of positive total mass and `p > 0`, the
truncated sorted vector keeps its first entry, which is the positive
maximum, so its sum is positive. -/
theorem trunc_sum_pos (probs : List ℚ) (p : ℚ) (hnn : ∀ x ∈ probs, 0 ≤ x)
    (hpos : 0 < probs.sum) (hp : 0 < p) :
    0 < (truncateTopP (probsSort probs) p).sum := by
  have hne : probs ≠ [] := by
    rintro rfl
    simp at hpos
  obtain ⟨m, i, rest, hsd, hmax, hmem, -, -⟩ := sortDesc_head_max probs hne
  have hps : probsSort probs = m :: rest.map Prod.fst := by
    unfold probsSort
    rw [hsd]
    rfl
  have hm : 0 < m := by
    by_contra hm
    push_neg at hm
    have hall : ∀ x ∈ probs, x ≤ 0 := fun x hx => le_trans (hmax x hx) hm
    exact absurd hpos (not_lt.mpr (list_sum_nonpos hall))
  have hrestnn : ∀ x ∈ rest.map Prod.fst, 0 ≤ x := by
    intro x hx
    exact mem_probsSort_nonneg hnn x (by rw [hps]; exact List.mem_cons_of_mem _ hx)
  rw [hps]
  unfold truncateTopP
  simp only [truncGo, if_neg (not_lt.mpr hp.le), List.sum_cons]
  have := truncGo_sum_nonneg p (0 + m) (rest.map Prod.fst) hrestnn
  linarith

/-- Claim C2: for nonnegative probabilities of positive total mass and
`top_p > 0`, the truncation keeps the first (highest) sorted entry
unchanged and the truncated vector has strictly positive sum, so the
zero-sum SamplingError condition is unreachable. -/
theorem topP_keeps_top_entry (probs : List ℚ) (p : ℚ)
    (hnn : ∀ x ∈ probs, 0 ≤ x) (hpos : 0 < probs.sum) (hp : 0 < p) :
    (truncateTopP (probsSort probs) p).head? = (probsSort probs).head? ∧
    0 < (truncateTopP (probsSort probs) p).sum :=
  ⟨truncateTopP_head _ p hp.le, trunc_sum_pos probs p hnn hpos hp⟩

/-- Witness for claim C2 on the distribution `[1/2, 1/2]` with
`top_p = 1/10`. -/
theorem topP_keeps_top_entry_witness :
    (truncateTopP (probsSort [(1 : ℚ)/2, 1/2]) (1/10)).head? =
      (probsSort [(1 : ℚ)/2, 1/2]).head? ∧
    0 < (truncateTopP (probsSort [(1 : ℚ)/2, 1/2]) (1/10)).sum :=
  topP_keeps_top_entry [(1 : ℚ)/2, 1/2] (1/10)
    (by norm_num [List.forall_mem_cons]) (by norm_num [List.sum_cons])
    (by norm_num)

/-- Claim C8: for any input distribution (nonnegative, summing to 1) and
any `top_p` in `(0, 1]`, the truncated-and-renormalized distribution
sums to exactly 1 in rational arithmetic. -/
theorem renorm_trunc_sum_one (probs : List ℚ) (p : ℚ)
    (hnn : ∀ x ∈ probs, 0 ≤ x) (hsum : probs.sum = 1)
    (hp0 : 0 < p) (hp1 : p ≤ 1) :
    (renorm (truncateTopP (probsSort probs) p)).sum = 1 :=
  renorm_sum_of_ne _
    (ne_of_gt (trunc_sum_pos probs p hnn (by rw [hsum]; norm_num) hp0))

/-- Witness for claim C8 on the distribution `[3/4, 1/4]` with
`top_p = 1/2`. -/
theorem renorm_trunc_sum_one_witness :
    (renorm (truncateTopP (probsSort [(3 : ℚ)/4, 1/4]) (1/2))).sum = 1 :=
  renorm_trunc_sum_one [(3 : ℚ)/4, 1/4] (1/2)
    (by norm_num [List.forall_mem_cons]) (by norm_num [List.sum_cons])
    (by norm_num) (by norm_num)

/-- Claim C10: for every probability distribution and `top_p` in
`(0, 1]`, the nucleus sampler returns the entry of `probs_idx` at the
sampled rank, the rank is in bounds with strictly positive truncated
probability, and the returned token id is a valid index into the input
vector. -/
theorem sample_index_valid (probs : List ℚ) (p u : ℚ)
    (hnn : ∀ x ∈ probs, 0 ≤ x) (hsum : probs.sum = 1)
    (hp0 : 0 < p) (hp1 : p ≤ 1) (hu0 : 0 ≤ u) (hu1 : u < 1) :
    drawIndex (renorm (truncateTopP (probsSort probs) p)) u < probs.length ∧
    0 < (renorm (truncateTopP (probsSort probs) p)).getD
        (drawIndex (renorm (truncateTopP (probsSort probs) p)) u) 0 ∧
    sampleTopP probs p u =
      (probsIdx probs).getD
        (drawIndex (renorm (truncateTopP (probsSort probs) p)) u) 0 ∧
    sampleTopP probs p u < probs.length := by
  have hws : (renorm (truncateTopP (probsSort probs) p)).sum = 1 :=
    renorm_sum_of_ne _
      (ne_of_gt (trunc_sum_pos probs p hnn (by rw [hsum]; norm_num) hp0))
  have hwl : (renorm (truncateTopP (probsSort probs) p)).length = probs.length := by
    rw [renorm_length]
    unfold truncateTopP
    rw [truncGo_length, probsSort_length]
  have hr : drawIndex (renorm (truncateTopP (probsSort probs) p)) u <
      (renorm (truncateTopP (probsSort probs) p)).length :=
    drawIndex_lt _ u hu0 (by rw [hws]; exact hu1)
  refine ⟨hwl ▸ hr, drawIndex_pos_weight _ u hu0 hr, rfl, ?_⟩
  have hrl : drawIndex (renorm (truncateTopP (probsSort probs) p)) u <
      (probsIdx probs).length := by
    rw [probsIdx_length]
    omega
  have hmem : (probsIdx probs).getD
      (drawIndex (renorm (truncateTopP (probsSort probs) p)) u) 0 ∈
      probsIdx probs := by
    rw [List.getD_eq_getElem _ _ hrl]
    exact List.getElem_mem hrl
  exact mem_probsIdx_lt hmem

/-- Witness for claim C10 on the distribution `[1/4, 3/4]` with
`top_p = 1/2` and draw `u = 1/3`. -/
theorem sample_index_valid_witness :
    drawIndex (renorm (truncateTopP (probsSort [(1 : ℚ)/4, 3/4]) (1/2))) (1/3) <
      [(1 : ℚ)/4, 3/4].length ∧
    0 < (renorm (truncateTopP (probsSort [(1 : ℚ)/4, 3/4]) (1/2))).getD
        (drawIndex (renorm (truncateTopP (probsSort [(1 : ℚ)/4, 3/4]) (1/2)))
          (1/3)) 0 ∧
    sampleTopP [(1 : ℚ)/4, 3/4] (1/2) (1/3) =
      (probsIdx [(1 : ℚ)/4, 3/4]).getD
        (drawIndex (renorm (truncateTopP (probsSort [(1 : ℚ)/4, 3/4]) (1/2)))
          (1/3)) 0 ∧
    sampleTopP [(1 : ℚ)/4, 3/4] (1/2) (1/3) < [(1 : ℚ)/4, 3/4].length :=
  sample_index_valid [(1 : ℚ)/4, 3/4] (1/2) (1/3)
    (by norm_num [List.forall_mem_cons]) (by norm_num [List.sum_cons])
    (by norm_num) (by norm_num) (by norm_num) (by norm_num)

/-! ### Facts about the greedy argmax -/

theorem le_listMax : ∀ (l : List ℚ), ∀ x ∈ l, x ≤ listMax l := by
  intro l
  induction l with
  | nil => intro x hx; simp at hx
  | cons a t ih =>
    cases t with
    | nil =>
      intro x hx
      rcases List.mem_cons.mp hx with rfl | hx2
      · exact le_refl _
      · simp at hx2
    | cons b t2 =>
      intro x hx
      show x ≤ max a (listMax (b :: t2))
      rcases List.mem_cons.mp hx with rfl | hx2
      · exact le_max_left _ _
      · exact le_trans (ih x hx2) (le_max_right _ _)

theorem argmaxIdx_lt_length : ∀ (l : List ℚ), l ≠ [] → argmaxIdx l < l.length := by
  intro l
  induction l with
  | nil => intro h; exact absurd rfl h
  | cons a t ih =>
    cases t with
    | nil => intro _; simp [argmaxIdx]
    | cons b t2 =>
      intro _
      show (if a < listMax (b :: t2) then argmaxIdx (b :: t2) + 1 else 0) <
        (a :: b :: t2).length
      split
      · have := ih (by simp)
        simpa using Nat.succ_lt_succ this
      · simp

theorem getD_argmaxIdx : ∀ (l : List ℚ), l ≠ [] →
    l.getD (argmaxIdx l) 0 = listMax l := by
  intro l
  induction l with
  | nil => intro h; exact absurd rfl h
  | cons a t ih =>
    cases t with
    | nil => intro _; rfl
    | cons b t2 =>
      intro _
      show (a :: b :: t2).getD
        (if a < listMax (b :: t2) then argmaxIdx (b :: t2) + 1 else 0) 0 =
        max a (listMax (b :: t2))
      by_cases h : a < listMax (b :: t2)
      · rw [if_pos h, List.getD_cons_succ, ih (by simp), max_eq_right h.le]
      · rw [if_neg h, List.getD_cons_zero, max_eq_left (not_lt.mp h)]

theorem argmaxIdx_first : ∀ (l : List ℚ), ∀ j < argmaxIdx l,
    l.getD j 0 < listMax l := by
  intro l
  induction l with
  | nil => intro j hj; simp [argmaxIdx] at hj
  | cons a t ih =>
    cases t with
    | nil => intro j hj; simp [argmaxIdx] at hj
    | cons b t2 =>
      intro j hj
      have hdef : argmaxIdx (a :: b :: t2) =
          if a < listMax (b :: t2) then argmaxIdx (b :: t2) + 1 else 0 := rfl
      rw [hdef] at hj
      by_cases h : a < listMax (b :: t2)
      · rw [if_pos h] at hj
        show (a :: b :: t2).getD j 0 < max a (listMax (b :: t2))
        rw [max_eq_right h.le]
        cases j with
        | zero => rw [List.getD_cons_zero]; exact h
        | succ j2 =>
          rw [List.getD_cons_succ]
          exact ih j2 (Nat.lt_of_succ_lt_succ hj)
      · rw [if_neg h] at hj
        exact absurd hj (Nat.not_lt_zero j)

/-- Claim C5: the greedy strategy returns the index of the maximum value
of the score vector, with ties resolved to the lowest index (every
strictly earlier index holds a strictly smaller value), and scores
`[0.1, 0.9, 0.9]` yield token 1.  Determinism is inherent: `argmaxIdx`
is a pure function of the score vector. -/
theorem greedy_argmax_spec (l : List ℚ) (h : l ≠ []) :
    argmaxIdx l < l.length ∧
    (∀ j, j < l.length → l.getD j 0 ≤ l.getD (argmaxIdx l) 0) ∧
    (∀ j, j < argmaxIdx l → l.getD j 0 < l.getD (argmaxIdx l) 0) ∧
    argmaxIdx [(1 : ℚ)/10, 9/10, 9/10] = 1 := by
  refine ⟨argmaxIdx_lt_length l h, ?_, ?_, ?_⟩
  · intro j hj
    rw [getD_argmaxIdx l h]
    exact le_listMax l _ (getD_mem_of_lt l j hj)
  · intro j hj
    rw [getD_argmaxIdx l h]
    exact argmaxIdx_first l j hj
  · norm_num [argmaxIdx, listMax]

/-- Witness for claim C5 on the score vector `[1/10, 9/10, 9/10]`. -/
theorem greedy_argmax_spec_witness :
    argmaxIdx [(1 : ℚ)/10, 9/10, 9/10] < [(1 : ℚ)/10, 9/10, 9/10].length ∧
    (∀ j, j < [(1 : ℚ)/10, 9/10, 9/10].length →
      [(1 : ℚ)/10, 9/10, 9/10].getD j 0 ≤
        [(1 : ℚ)/10, 9/10, 9/10].getD (argmaxIdx [(1 : ℚ)/10, 9/10, 9/10]) 0) ∧
    (∀ j, j < argmaxIdx [(1 : ℚ)/10, 9/10, 9/10] →
      [(1 : ℚ)/10, 9/10, 9/10].getD j 0 <
        [(1 : ℚ)/10, 9/10, 9/10].getD (argmaxIdx [(1 : ℚ)/10, 9/10, 9/10]) 0) ∧
    argmaxIdx [(1 : ℚ)/10, 9/10, 9/10] = 1 :=
  greedy_argmax_spec [(1 : ℚ)/10, 9/10, 9/10] (by simp)

/-! ### The induced distribution over vocabulary ids -/

theorem massAt_perm {s t : List (ℚ × ℕ)} (h : s.Perm t) (j : ℕ) :
    massAt s j = massAt t j :=
  ((h.filter _).map _).sum_eq

theorem massAt_cons (q : ℚ × ℕ) (s : List (ℚ × ℕ)) (j : ℕ) :
    massAt (q :: s) j = (if q.2 = j then q.1 else 0) + massAt s j := by
  unfold massAt
  by_cases h : q.2 = j
  · simp [List.filter_cons, h]
  · simp [List.filter_cons, h]

theorem massAt_enumFrom (l : List ℚ) : ∀ (k j : ℕ),
    (massAt ((l.enumFrom k).map (fun pr => (pr.2, pr.1))) (k + j) =
      l.getD j 0) ∧
    (∀ j2, j2 < k →
      massAt ((l.enumFrom k).map (fun pr => (pr.2, pr.1))) j2 = 0) := by
  induction l with
  | nil =>
    intro k j
    constructor
    · rfl
    · intro j2 _; rfl
  | cons x xs ih =>
    intro k j
    constructor
    · rw [List.enumFrom_cons]
      simp only [List.map_cons]
      rw [massAt_cons]
      cases j with
      | zero =>
        have h0 := (ih (k + 1) 0).2 k (by omega)
        simp only [Nat.add_zero, if_pos rfl, h0, add_zero]
        rfl
      | succ j2 =>
        have hne : ¬ (k = k + (j2 + 1)) := by omega
        rw [if_neg hne, zero_add]
        have harith : k + (j2 + 1) = (k + 1) + j2 := by omega
        rw [harith, (ih (k + 1) j2).1, List.getD_cons_succ]
    · intro j2 hj2
      rw [List.enumFrom_cons]
      simp only [List.map_cons]
      rw [massAt_cons, if_neg (by omega), zero_add]
      exact (ih (k + 1) 0).2 j2 (by omega)

theorem massAt_withIdx (probs : List ℚ) (j : ℕ) :
    massAt (withIdx probs) j = probs.getD j 0 := by
  have he : withIdx probs =
      (probs.enumFrom 0).map (fun pr => (pr.2, pr.1)) := rfl
  rw [he]
  have h := (massAt_enumFrom probs 0 j).1
  simpa using h

theorem massAt_sortDesc (probs : List ℚ) (j : ℕ) :
    massAt (sortDesc probs) j = probs.getD j 0 := by
  rw [massAt_perm (sortDesc_perm probs) j, massAt_withIdx]

/-- Claim C6: for a probability distribution summing to 1 and
`top_p = 1`, the truncation zeroes nothing, the renormalization is the
identity, and the distribution the draw uses, read off over original
vocabulary ids, is identical to the input distribution. -/
theorem topP_one_no_truncation (probs : List ℚ)
    (hnn : ∀ x ∈ probs, 0 ≤ x) (hsum : probs.sum = 1) :
    truncateTopP (probsSort probs) 1 = probsSort probs ∧
    renorm (truncateTopP (probsSort probs) 1) = probsSort probs ∧
    ∀ j, massAt (sortDesc probs) j = probs.getD j 0 := by
  have hnn2 := mem_probsSort_nonneg hnn
  have hsum2 : (probsSort probs).sum = 1 := by rw [probsSort_sum, hsum]
  have htr : truncateTopP (probsSort probs) 1 = probsSort probs := by
    unfold truncateTopP
    exact truncGo_keep_all 1 (probsSort probs) 0 hnn2 (by rw [zero_add, hsum2])
  refine ⟨htr, ?_, fun j => massAt_sortDesc probs j⟩
  rw [htr]
  unfold renorm
  rw [hsum2]
  simp

/-- Witness for claim C6 on the distribution `[1/4, 3/4]`. -/
theorem topP_one_no_truncation_witness :
    truncateTopP (probsSort [(1 : ℚ)/4, 3/4]) 1 = probsSort [(1 : ℚ)/4, 3/4] ∧
    renorm (truncateTopP (probsSort [(1 : ℚ)/4, 3/4]) 1) =
      probsSort [(1 : ℚ)/4, 3/4] ∧
    ∀ j, massAt (sortDesc [(1 : ℚ)/4, 3/4]) j = [(1 : ℚ)/4, 3/4].getD j 0 :=
  topP_one_no_truncation [(1 : ℚ)/4, 3/4]
    (by norm_num [List.forall_mem_cons]) (by norm_num [List.sum_cons])

/-! ### Collapse of nucleus sampling onto the greedy choice -/

/-- Claim C7: when the maximum probability is unique and `top_p` lies
below it (within the nonnegative `top_p` domain of the sampling
configuration), the truncation keeps exactly the top entry, so every
draw returns the greedy token `argmaxIdx probs`. -/
theorem topP_small_equals_greedy (probs : List ℚ) (p u : ℚ)
    (hnn : ∀ x ∈ probs, 0 ≤ x) (hne : probs ≠ [])
    (hmaxU : ∀ j, j < probs.length → j ≠ argmaxIdx probs →
      probs.getD j 0 < probs.getD (argmaxIdx probs) 0)
    (hp0 : 0 ≤ p) (hp : p < probs.getD (argmaxIdx probs) 0)
    (hu0 : 0 ≤ u) (hu1 : u < 1) :
    sampleTopP probs p u = argmaxIdx probs := by
  obtain ⟨m, i, rest, hsd, hmax, hmem, hilt, hival⟩ := sortDesc_head_max probs hne
  have hA : argmaxIdx probs < probs.length := argmaxIdx_lt_length probs hne
  have hAval : probs.getD (argmaxIdx probs) 0 ≤ m :=
    hmax _ (getD_mem_of_lt probs _ hA)
  have hiA : i = argmaxIdx probs := by
    by_contra hne2
    have hlt := hmaxU i hilt hne2
    rw [hival] at hlt
    linarith
  have hmA : m = probs.getD (argmaxIdx probs) 0 := by
    rw [← hiA, hival]
  have hps : probsSort probs = m :: rest.map Prod.fst := by
    unfold probsSort
    rw [hsd]
    rfl
  have hidx : probsIdx probs = i :: rest.map Prod.snd := by
    unfold probsIdx
    rw [hsd]
    rfl
  have hrestnn : ∀ x ∈ rest.map Prod.fst, 0 ≤ x := by
    intro x hx
    exact mem_probsSort_nonneg hnn x (by rw [hps]; exact List.mem_cons_of_mem _ hx)
  have hpm : p < m := by rw [hmA]; exact hp
  have hm0 : m ≠ 0 := by linarith
  have htr : truncateTopP (probsSort probs) p =
      m :: List.replicate (rest.map Prod.fst).length 0 := by
    rw [hps]
    unfold truncateTopP
    simp only [truncGo, if_neg (not_lt.mpr hp0)]
    rw [truncGo_zero_all p (rest.map Prod.fst) (0 + m) hrestnn (by rw [zero_add]; exact hpm)]
  have hren : renorm (m :: List.replicate (rest.map Prod.fst).length 0) =
      1 :: List.replicate (rest.map Prod.fst).length 0 := by
    unfold renorm
    have hsum' : (m :: List.replicate (rest.map Prod.fst).length 0).sum = m := by
      simp [List.sum_replicate]
    rw [hsum']
    simp [List.map_replicate, div_self hm0]
  have hdraw : drawIndex (1 :: List.replicate (rest.map Prod.fst).length 0) u = 0 := by
    simp [drawIndex, hu1]
  unfold sampleTopP
  rw [htr, hren, hdraw, hidx, List.getD_cons_zero, hiA]

/-- Witness for claim C7 on the distribution `[1/4, 3/4]` with
`top_p = 1/2` and draw `u = 2/3`: the sampler returns token 1, the
greedy argmax. -/
theorem topP_small_equals_greedy_witness :
    sampleTopP [(1 : ℚ)/4, 3/4] (1/2) (2/3) = argmaxIdx [(1 : ℚ)/4, 3/4] :=
  topP_small_equals_greedy [(1 : ℚ)/4, 3/4] (1/2) (2/3)
    (by norm_num [List.forall_mem_cons]) (by simp)
    (by
      intro j hj hne2
      simp only [List.length_cons, List.length_nil] at hj
      have hA : argmaxIdx [(1 : ℚ)/4, 3/4] = 1 := by norm_num [argmaxIdx, listMax]
      rw [hA] at hne2 ⊢
      have hj0 : j = 0 := by omega
      subst hj0
      norm_num [List.getD_cons_succ, List.getD_cons_zero])
    (by norm_num) (by norm_num [argmaxIdx, listMax]) (by norm_num) (by norm_num)

end PaliGemma
